import Mathlib

/-!
Shallow embedding of the computational core of the `maxent` fractal notebooks:
the log-domain objective functions (`get_log_resistance`, `get_log_consumption`),
the aggregate constraint functions (`get_log_volume`, `get_log_population`),
the numerically stable `logsumexp` reduction, and the bound/constraint assembly
passed to `scipy.optimize.minimize`.  Machine floats are modelled as real numbers.
-/

namespace Maxent

/-- Largest entry of a list of reals (`np.max` as used inside `logsumexp`);
`0` for the empty list, which never occurs in the notebooks. -/
noncomputable def listMax : List ℝ → ℝ
  | [] => 0
  | x :: xs => xs.foldl max x

/-- The function `scipy.special.logsumexp`: the numerically stable reduction
`m + log (Σ_i exp (xᵢ - m))` where `m` is the largest entry. -/
noncomputable def logsumexp (logits : List ℝ) : ℝ :=
  listMax logits + Real.log ((logits.map fun x => Real.exp (x - listMax logits)).sum)

/-- A `scipy.optimize.minimize` constraint record: the `"type"` tag
(`"eq"` for an equality constraint) and the constraint function `"fun"`. -/
structure Constraint where
  ctype : String
  cfun : List ℝ → ℝ

instance : Inhabited Constraint := ⟨⟨"", fun _ => 0⟩⟩

namespace Bio

/-- The constant `EXPERIMENT["levels"] = 5` of the adjusted-biology notebook. -/
def levels : ℕ := 5

/-- The target `EXPERIMENT["true_log_volume"] = 3e+1`. -/
noncomputable def true_log_volume : ℝ := 30

/-- The `get_log_resistance` of the adjusted-biology notebook: `logsumexp` of the
logits `-(5/3) * np.sum(log_nu[k:]) - np.sum(log_nu[:k])` for
`k in range(EXPERIMENT["levels"]+1)`. -/
noncomputable def get_log_resistance (log_nu : List ℝ) : ℝ :=
  logsumexp ((List.range (levels + 1)).map fun k =>
    -(5 / 3) * (log_nu.drop k).sum - (log_nu.take k).sum)

/-- The `get_log_volume` of the adjusted-biology notebook: `np.sum(log_nu)`. -/
noncomputable def get_log_volume (log_nu : List ℝ) : ℝ := log_nu.sum

/-- The assembly `bounds = [(0., None) for _ in range(EXPERIMENT["levels"]-1)] + [(0., 6.)]`. -/
noncomputable def bounds : List (ℝ × Option ℝ) :=
  ((List.range (levels - 1)).map fun _ => ((0 : ℝ), (none : Option ℝ)))
    ++ [((0 : ℝ), some 6)]

/-- The single equality constraint
`lambda log_nu: get_log_volume(log_nu) - EXPERIMENT["true_log_volume"]`. -/
noncomputable def constraints : List Constraint :=
  [⟨"eq", fun log_nu => get_log_volume log_nu - true_log_volume⟩]

end Bio

namespace West

/-- The constant `LEVELS = 10` of the West-1997 notebook. -/
def LEVELS : ℕ := 10

/-- The target `TRUE_LOG_VOLUME = 3e+1`. -/
noncomputable def TRUE_LOG_VOLUME : ℝ := 30

/-- The `get_log_resistance` of the West-1997 notebook: `logsumexp` of the
logits `-(2/3) * np.sum(log_nu[k:])` for `k in range(LEVELS+1)`. -/
noncomputable def get_log_resistance (log_nu : List ℝ) : ℝ :=
  logsumexp ((List.range (LEVELS + 1)).map fun k =>
    -(2 / 3) * (log_nu.drop k).sum)

/-- The `get_log_volume` of the West-1997 notebook: `logsumexp` of the
logits `(1/3) * np.sum(log_nu[k:])` for `k in range(LEVELS+1)`. -/
noncomputable def get_log_volume (log_nu : List ℝ) : ℝ :=
  logsumexp ((List.range (LEVELS + 1)).map fun k =>
    (1 / 3) * (log_nu.drop k).sum)

/-- The assembly `bounds = [(0., None) for _ in range(LEVELS)]`. -/
noncomputable def bounds : List (ℝ × Option ℝ) :=
  (List.range LEVELS).map fun _ => ((0 : ℝ), (none : Option ℝ))

/-- The single equality constraint
`lambda log_nu: get_log_volume(log_nu) - TRUE_LOG_VOLUME`. -/
noncomputable def constraints : List Constraint :=
  [⟨"eq", fun log_nu => get_log_volume log_nu - TRUE_LOG_VOLUME⟩]

/-- The vector `test_log_nu = [0., 0., 0., 0., 0., 0., 0., 0., 0., 85.]`, the
hand-constructed vector the notebook calls "the true extreme". -/
noncomputable def test_log_nu : List ℝ := [0, 0, 0, 0, 0, 0, 0, 0, 0, 85]

/-- The per-level exponentiated contribution printed by the diagnostic cell:
`np.exp(-(2/3) * np.sum(x[k:]))`. -/
noncomputable def term (x : List ℝ) (k : ℕ) : ℝ :=
  Real.exp (-(2 / 3) * (x.drop k).sum)

/-- The per-level contribution with the suffix-sum exponent flipped to `+2/3`,
the modification discussed in the conclusion cell of the notebook. -/
noncomputable def termFlipped (x : List ℝ) (k : ℕ) : ℝ :=
  Real.exp ((2 / 3) * (x.drop k).sum)

end West

namespace Logistics

/-- The constant `LEVELS = 4` of the logistics notebook. -/
def LEVELS : ℕ := 4

/-- The target `TRUE_LOG_POPULATION = 1e+2`. -/
noncomputable def TRUE_LOG_POPULATION : ℝ := 100

/-- The `get_log_consumption` of the logistics notebook: `logsumexp` of the logits
`(1/2) * np.sum(log_nu[k:])` for `k in range(LEVELS+1)`. -/
noncomputable def get_log_consumption (log_nu : List ℝ) : ℝ :=
  logsumexp ((List.range (LEVELS + 1)).map fun k =>
    (1 / 2) * (log_nu.drop k).sum)

/-- The `get_log_population` of the logistics notebook: `np.sum(log_nu)`. -/
noncomputable def get_log_population (log_nu : List ℝ) : ℝ := log_nu.sum

/-- The assembly `bounds = [(0., None) for _ in range(LEVELS)]`. -/
noncomputable def bounds : List (ℝ × Option ℝ) :=
  (List.range LEVELS).map fun _ => ((0 : ℝ), (none : Option ℝ))

/-- The single equality constraint
`lambda log_nu: get_log_population(log_nu) - TRUE_LOG_POPULATION`. -/
noncomputable def constraints : List Constraint :=
  [⟨"eq", fun log_nu => get_log_population log_nu - TRUE_LOG_POPULATION⟩]

end Logistics

/-- The linear functional `x ↦ Σ_i c i * x i` as a continuous linear map. -/
noncomputable def coefCLM {m : ℕ} (c : Fin m → ℝ) : (Fin m → ℝ) →L[ℝ] ℝ :=
  ∑ i, c i • ContinuousLinearMap.proj i

/-- The sum of exponentials of `n` linear logits with coefficients `coef`. -/
noncomputable def expSum {m : ℕ} (n : ℕ) (coef : ℕ → Fin m → ℝ) (x : Fin m → ℝ) : ℝ :=
  ∑ k in Finset.range n, Real.exp (coefCLM (coef k) x)

/-- The softmax-weighted combination of the per-term linear coefficient
functionals: the gradient of `log ∘ expSum`. -/
noncomputable def softmaxGrad {m : ℕ} (n : ℕ) (coef : ℕ → Fin m → ℝ) (x : Fin m → ℝ) :
    (Fin m → ℝ) →L[ℝ] ℝ :=
  ∑ k in Finset.range n, (Real.exp (coefCLM (coef k) x) / expSum n coef x) • coefCLM (coef k)

/-- Per-term linear coefficients of the adjusted-biology logits: component `i`
carries `-(5/3)` in the suffix part (`k ≤ i`) and `-1` in the prefix part. -/
noncomputable def bioCoef (k : ℕ) (i : Fin 5) : ℝ :=
  if k ≤ (i : ℕ) then -(5 / 3) else -1

/-- Per-term linear coefficients of the West-1997 resistance logits. -/
noncomputable def westCoef (k : ℕ) (i : Fin 10) : ℝ :=
  if k ≤ (i : ℕ) then -(2 / 3) else 0

/-- Per-term linear coefficients of the West-1997 volume logits. -/
noncomputable def westVolCoef (k : ℕ) (i : Fin 10) : ℝ :=
  if k ≤ (i : ℕ) then 1 / 3 else 0

/-- Per-term linear coefficients of the logistics consumption logits. -/
noncomputable def logisticsCoef (k : ℕ) (i : Fin 4) : ℝ :=
  if k ≤ (i : ℕ) then 1 / 2 else 0

/-- The accumulator of `foldl max` is dominated by the result. -/
theorem le_foldl_max_init (xs : List ℝ) : ∀ x : ℝ, x ≤ xs.foldl max x := by
  induction xs with
  | nil => intro x; simp
  | cons y ys ih =>
    intro x
    calc x ≤ max x y := le_max_left x y
    _ ≤ ys.foldl max (max x y) := ih (max x y)

/-- A `foldl max` result is one of the accumulator or the list entries. -/
theorem foldl_max_mem (xs : List ℝ) : ∀ x : ℝ, xs.foldl max x ∈ x :: xs := by
  induction xs with
  | nil => intro x; simp
  | cons y ys ih =>
    intro x
    simp only [List.foldl_cons]
    rcases List.mem_cons.mp (ih (max x y)) with h | h
    · rcases max_choice x y with hm | hm
      · rw [h, hm]; exact List.mem_cons_self _ _
      · rw [h, hm]; exact List.mem_cons_of_mem _ (List.mem_cons_self _ _)
    · exact List.mem_cons_of_mem _ (List.mem_cons_of_mem _ h)

/-- A `foldl max` result dominates every entry of the list. -/
theorem le_foldl_max (xs : List ℝ) : ∀ x z : ℝ, z ∈ xs → z ≤ xs.foldl max x := by
  induction xs with
  | nil => intro x z hz; simp at hz
  | cons y ys ih =>
    intro x z hz
    simp only [List.foldl_cons]
    rcases List.mem_cons.mp hz with h | h
    · calc z = y := h
      _ ≤ max x y := le_max_right x y
      _ ≤ ys.foldl max (max x y) := le_foldl_max_init ys (max x y)
    · exact ih (max x y) z h

/-- For a non-empty list, `listMax` is one of the entries. -/
theorem listMax_mem {l : List ℝ} (h : l ≠ []) : listMax l ∈ l := by
  cases l with
  | nil => exact absurd rfl h
  | cons x xs => exact foldl_max_mem xs x

/-- Every entry of a list is dominated by `listMax`. -/
theorem le_listMax {l : List ℝ} {z : ℝ} (hz : z ∈ l) : z ≤ listMax l := by
  cases l with
  | nil => simp at hz
  | cons x xs =>
    rcases List.mem_cons.mp hz with h | h
    · rw [h]; exact le_foldl_max_init xs x
    · exact le_foldl_max xs x z h

/-- The sum of exponentials of a non-empty list is positive. -/
theorem sum_map_exp_pos (l : List ℝ) (h : l ≠ []) : 0 < (l.map Real.exp).sum := by
  apply List.sum_pos
  · intro x hx
    rcases List.mem_map.mp hx with ⟨y, _, rfl⟩
    exact Real.exp_pos y
  · simpa using h

/-- Pulling a constant factor out of a mapped sum. -/
theorem sum_map_mul_const (l : List ℝ) (f : ℝ → ℝ) (c : ℝ) :
    (l.map fun x => f x * c).sum = (l.map f).sum * c := by
  induction l with
  | nil => simp
  | cons x xs ih => simp [ih, add_mul]

/-- On non-empty input, the shifted-by-max `logsumexp` computes exactly
`log (Σ_i exp xᵢ)`. -/
theorem logsumexp_eq_log_sum_exp (l : List ℝ) (h : l ≠ []) :
    logsumexp l = Real.log ((l.map Real.exp).sum) := by
  unfold logsumexp
  have hpos : 0 < (l.map Real.exp).sum := sum_map_exp_pos l h
  have hmap : (l.map fun x => Real.exp (x - listMax l))
      = l.map fun x => Real.exp x * Real.exp (-listMax l) := by
    apply List.map_congr_left
    intro x _
    rw [← Real.exp_add]
    ring_nf
  rw [hmap, sum_map_mul_const l Real.exp (Real.exp (-listMax l)),
    Real.log_mul (ne_of_gt hpos) (ne_of_gt (Real.exp_pos _)), Real.log_exp]
  ring

/-- The sum of the first `k` entries as an indexed sum, for `k ≤ length`. -/
theorem sum_take_eq_sum_range (v : List ℝ) :
    ∀ k, k ≤ v.length → (v.take k).sum = ∑ i in Finset.range k, v.getD i 0 := by
  induction v with
  | nil =>
    intro k hk
    have : k = 0 := by simpa using hk
    simp [this]
  | cons x xs ih =>
    intro k hk
    cases k with
    | zero => simp
    | succ j =>
      have hj : j ≤ xs.length := by simpa using hk
      rw [List.take_succ_cons, List.sum_cons, ih j hj, Finset.sum_range_succ']
      simp [List.getD]
      ring

/-- The sum of all entries as an indexed sum. -/
theorem sum_eq_sum_range (v : List ℝ) :
    v.sum = ∑ i in Finset.range v.length, v.getD i 0 := by
  have := sum_take_eq_sum_range v v.length le_rfl
  simpa [List.take_length] using this

/-- The suffix sum `np.sum(v[k:])` as an indexed sum, for `k ≤ length`. -/
theorem sum_drop_eq_sum_Ico (v : List ℝ) (k : ℕ) (hk : k ≤ v.length) :
    (v.drop k).sum = ∑ i in Finset.Ico k v.length, v.getD i 0 := by
  have hsplit : (v.take k).sum + (v.drop k).sum = v.sum := List.sum_take_add_sum_drop v k
  have htake := sum_take_eq_sum_range v k hk
  have hico : ∑ i in Finset.Ico k v.length, v.getD i 0
      = ∑ i in Finset.range v.length, v.getD i 0 - ∑ i in Finset.range k, v.getD i 0 :=
    Finset.sum_Ico_eq_sub _ hk
  rw [hico, ← sum_eq_sum_range, ← htake]
  linarith

/-- C1: for the adjusted-biology variant with `C = 5`, the objective
`get_log_resistance(log_nu)` is the log-sum-exp of the `C+1` logits
`-(5/3) * Σ_{i=k}^{C-1} log_nu[i] - Σ_{i=0}^{k-1} log_nu[i]`, `k = 0..C`. -/
theorem C1_bio_objective_formula (v : List ℝ) (h : v.length = 5) :
    Bio.get_log_resistance v =
      logsumexp ((List.range 6).map fun k =>
        -(5 / 3) * (∑ i in Finset.Ico k 5, v.getD i 0)
          - ∑ i in Finset.Ico 0 k, v.getD i 0) := by
  unfold Bio.get_log_resistance
  have h6 : Bio.levels + 1 = 6 := rfl
  rw [h6]
  congr 1
  apply List.map_congr_left
  intro k hk
  have hk5 : k ≤ 5 := by
    have := List.mem_range.mp hk
    omega
  rw [sum_drop_eq_sum_Ico v k (by omega), sum_take_eq_sum_range v k (by omega), h]
  rw [Finset.range_eq_Ico]

/-- Closed witness for C1 at the concrete input `[1, 2, 3, 4, 5]`. -/
theorem C1_bio_objective_formula_witness :
    Bio.get_log_resistance [(1 : ℝ), 2, 3, 4, 5] =
      logsumexp ((List.range 6).map fun k =>
        -(5 / 3) * (∑ i in Finset.Ico k 5, ([(1 : ℝ), 2, 3, 4, 5] : List ℝ).getD i 0)
          - ∑ i in Finset.Ico 0 k, ([(1 : ℝ), 2, 3, 4, 5] : List ℝ).getD i 0) :=
  C1_bio_objective_formula [1, 2, 3, 4, 5] (by simp)

/-- C6: the aggregate of each variant is either the plain component sum
(adjusted-biology `get_log_volume`, logistics `get_log_population`) or, in the
West-1997 variant, the log-sum-exp of the `C+1` logits
`(1/3) * Σ_{i=k}^{C-1} log_nu[i]`, `k = 0..C`. -/
theorem C6_aggregates :
    (∀ v : List ℝ, v.length = 5 →
      Bio.get_log_volume v = ∑ i in Finset.range 5, v.getD i 0) ∧
    (∀ v : List ℝ, v.length = 4 →
      Logistics.get_log_population v = ∑ i in Finset.range 4, v.getD i 0) ∧
    (∀ v : List ℝ, v.length = 10 →
      West.get_log_volume v = logsumexp ((List.range 11).map fun k =>
        (1 / 3) * ∑ i in Finset.Ico k 10, v.getD i 0)) := by
  refine ⟨?_, ?_, ?_⟩
  · intro v hv
    rw [Bio.get_log_volume, sum_eq_sum_range, hv]
  · intro v hv
    rw [Logistics.get_log_population, sum_eq_sum_range, hv]
  · intro v hv
    unfold West.get_log_volume
    have h11 : West.LEVELS + 1 = 11 := rfl
    rw [h11]
    congr 1
    apply List.map_congr_left
    intro k hk
    have hk10 : k ≤ 10 := by
      have := List.mem_range.mp hk
      omega
    rw [sum_drop_eq_sum_Ico v k (by omega), hv]

/-- Closed witness for C6 at concrete inputs of the right lengths. -/
theorem C6_aggregates_witness :
    Bio.get_log_volume [(1 : ℝ), 1, 1, 1, 1]
        = ∑ i in Finset.range 5, ([(1 : ℝ), 1, 1, 1, 1] : List ℝ).getD i 0 ∧
      Logistics.get_log_population [(1 : ℝ), 1, 1, 1]
        = ∑ i in Finset.range 4, ([(1 : ℝ), 1, 1, 1] : List ℝ).getD i 0 ∧
      West.get_log_volume [(1 : ℝ), 1, 1, 1, 1, 1, 1, 1, 1, 1]
        = logsumexp ((List.range 11).map fun k =>
            (1 / 3) * ∑ i in Finset.Ico k 10,
              ([(1 : ℝ), 1, 1, 1, 1, 1, 1, 1, 1, 1] : List ℝ).getD i 0) :=
  ⟨C6_aggregates.1 [1, 1, 1, 1, 1] (by simp),
   C6_aggregates.2.1 [1, 1, 1, 1] (by simp),
   C6_aggregates.2.2 [1, 1, 1, 1, 1, 1, 1, 1, 1, 1] (by simp)⟩

/-- C7: in every variant the optimizer receives exactly one equality constraint
whose function is the aggregate minus the target, and per-component bounds
`(0, ∞)`, except that the adjusted-biology variant bounds its last component
by `(0, 6)`. -/
theorem C7_constraint_and_bound_assembly :
    (Bio.constraints.length = 1 ∧ Bio.constraints.headI.ctype = "eq" ∧
      (∀ v, Bio.constraints.headI.cfun v = Bio.get_log_volume v - 30) ∧
      Bio.bounds = [((0 : ℝ), (none : Option ℝ)), (0, none), (0, none), (0, none),
        (0, some 6)]) ∧
    (West.constraints.length = 1 ∧ West.constraints.headI.ctype = "eq" ∧
      (∀ v, West.constraints.headI.cfun v = West.get_log_volume v - 30) ∧
      West.bounds = List.replicate 10 ((0 : ℝ), (none : Option ℝ))) ∧
    (Logistics.constraints.length = 1 ∧ Logistics.constraints.headI.ctype = "eq" ∧
      (∀ v, Logistics.constraints.headI.cfun v = Logistics.get_log_population v - 100) ∧
      Logistics.bounds = List.replicate 4 ((0 : ℝ), (none : Option ℝ))) := by
  refine ⟨⟨rfl, rfl, fun v => rfl, ?_⟩, ⟨rfl, rfl, fun v => rfl, ?_⟩,
    ⟨rfl, rfl, fun v => rfl, ?_⟩⟩
  · show ((List.range (Bio.levels - 1)).map fun _ => ((0 : ℝ), (none : Option ℝ)))
        ++ [((0 : ℝ), some 6)] = _
    simp [Bio.levels, List.range_succ]
  · show ((List.range West.LEVELS).map fun _ => ((0 : ℝ), (none : Option ℝ))) = _
    simp [West.LEVELS, List.range_succ, List.replicate]
  · show ((List.range Logistics.LEVELS).map fun _ => ((0 : ℝ), (none : Option ℝ))) = _
    simp [Logistics.LEVELS, List.range_succ, List.replicate]

/-- Suffix sums of a componentwise-nonnegative vector are nonnegative. -/
theorem sum_drop_nonneg (v : List ℝ) (h0 : ∀ x ∈ v, 0 ≤ x) (k : ℕ) :
    0 ≤ (v.drop k).sum :=
  List.sum_nonneg fun x hx => h0 x (List.mem_of_mem_drop hx)

/-- Dropping entries of a nonnegative vector cannot increase the sum. -/
theorem sum_drop_le_sum (l : List ℝ) (h0 : ∀ x ∈ l, 0 ≤ x) (j : ℕ) :
    (l.drop j).sum ≤ l.sum := by
  have hsplit := List.sum_take_add_sum_drop l j
  have htake : 0 ≤ (l.take j).sum :=
    List.sum_nonneg fun x hx => h0 x (List.mem_of_mem_take hx)
  linarith

/-- Suffix sums of a nonnegative vector are antitone in the cut position. -/
theorem sum_drop_mono (v : List ℝ) (h0 : ∀ x ∈ v, 0 ≤ x) {k m : ℕ} (hkm : k ≤ m) :
    (v.drop m).sum ≤ (v.drop k).sum := by
  have hdd : (v.drop k).drop (m - k) = v.drop m := by
    rw [List.drop_drop]
    congr 1
    omega
  have h0' : ∀ x ∈ v.drop k, 0 ≤ x := fun x hx => h0 x (List.mem_of_mem_drop hx)
  calc (v.drop m).sum = ((v.drop k).drop (m - k)).sum := by rw [hdd]
  _ ≤ (v.drop k).sum := sum_drop_le_sum _ h0' _

/-- Every entry read through `getD` with default `0` is nonnegative when the
vector is componentwise nonnegative. -/
theorem getD_nonneg (v : List ℝ) (h0 : ∀ x ∈ v, 0 ≤ x) (i : ℕ) : 0 ≤ v.getD i 0 := by
  by_cases hi : i < v.length
  · rw [List.getD_eq_getElem v 0 hi]
    exact h0 _ (List.getElem_mem hi)
  · rw [List.getD_eq_default v 0 (by omega)]

/-- For a nonnegative vector of length `10`, every suffix sum cut at `k ≤ 9`
dominates the last component. -/
theorem getD_last_le_sum_drop (v : List ℝ) (h0 : ∀ x ∈ v, 0 ≤ x)
    (hlen : v.length = 10) {k : ℕ} (hk : k ≤ 9) : v.getD 9 0 ≤ (v.drop k).sum := by
  have h9 : (v.drop 9).sum = v.getD 9 0 := by
    rw [sum_drop_eq_sum_Ico v 9 (by omega), hlen]
    have : Finset.Ico 9 10 = {9} := by decide
    rw [this, Finset.sum_singleton]
  calc v.getD 9 0 = (v.drop 9).sum := h9.symm
  _ ≤ (v.drop k).sum := sum_drop_mono v h0 hk

/-- Exponentiating, `R * exp s ≤ exp t` as soon as `log R + s ≤ t`, for positive `R`. -/
theorem mul_exp_le_exp (R s t : ℝ) (hR : 0 < R) (h : Real.log R + s ≤ t) :
    R * Real.exp s ≤ Real.exp t := by
  have hRe : R = Real.exp (Real.log R) := (Real.exp_log hR).symm
  calc R * Real.exp s = Real.exp (Real.log R + s) := by rw [Real.exp_add, ← hRe]
  _ ≤ Real.exp t := Real.exp_le_exp.mpr h

/-- C3: in the West-1997 resistance objective (suffix exponent `-2/3`,
`C = 10`), for nonnegative components, whenever the last component alone is
large (at least `(3/2) log R`) the `k = C` exponentiated contribution exceeds
every other contribution by the factor `R` — the other components may all be
zero, as in the single-dominant-branch regime of `test_log_nu`; independently,
with the suffix exponent flipped to `+2/3`, whenever the first component is
large the `k = 0` contribution exceeds every other contribution by the
factor `R`.  Each conclusion is gated only on its own threshold. -/
theorem C3_dominance (v : List ℝ) (R : ℝ) (hlen : v.length = 10)
    (h0 : ∀ x ∈ v, 0 ≤ x) (hR : 1 ≤ R) :
    (Real.log R ≤ (2 / 3) * v.getD 9 0 →
      ∀ k, k < 10 → R * West.term v k ≤ West.term v 10) ∧
      (Real.log R ≤ (2 / 3) * v.getD 0 0 →
        ∀ k, 1 ≤ k → k ≤ 10 → R * West.termFlipped v k ≤ West.termFlipped v 0) := by
  have hRpos : (0 : ℝ) < R := lt_of_lt_of_le zero_lt_one hR
  have hdrop10 : v.drop 10 = [] := by
    rw [← hlen]
    exact List.drop_length v
  constructor
  · intro hlast k hk
    unfold West.term
    apply mul_exp_le_exp _ _ _ hRpos
    have hsuffix : v.getD 9 0 ≤ (v.drop k).sum :=
      getD_last_le_sum_drop v h0 hlen (by omega)
    rw [hdrop10]
    simp only [List.sum_nil]
    nlinarith
  · intro hfirst k hk1 hk10
    unfold West.termFlipped
    apply mul_exp_le_exp _ _ _ hRpos
    have hsplit := List.sum_take_add_sum_drop v k
    have htake : v.getD 0 0 ≤ (v.take k).sum := by
      rw [sum_take_eq_sum_range v k (by omega)]
      exact Finset.single_le_sum (fun i _ => getD_nonneg v h0 i)
        (Finset.mem_range.mpr (by omega))
    have hd0 : v.drop 0 = v := List.drop_zero v
    rw [hd0]
    nlinarith

/-- Closed witness for C3: the single-dominant-branch regime is exercised at
the repository vector `[0,...,0,85]` with the huge factor `R = exp 40`
(only the last component is large there), and the flipped regime at the
uniform vector `[3,...,3]` with `R = 7`. -/
theorem C3_dominance_witness :
    Real.exp 40 * West.term [(0 : ℝ), 0, 0, 0, 0, 0, 0, 0, 0, 85] 3
        ≤ West.term [(0 : ℝ), 0, 0, 0, 0, 0, 0, 0, 0, 85] 10 ∧
      7 * West.termFlipped [(3 : ℝ), 3, 3, 3, 3, 3, 3, 3, 3, 3] 10
        ≤ West.termFlipped [(3 : ℝ), 3, 3, 3, 3, 3, 3, 3, 3, 3] 0 := by
  have hexpR : (1 : ℝ) ≤ Real.exp 40 := by
    nlinarith [Real.add_one_le_exp (40 : ℝ)]
  have hspike := C3_dominance [(0 : ℝ), 0, 0, 0, 0, 0, 0, 0, 0, 85] (Real.exp 40) (by simp)
    (by
      intro x hx
      simp at hx
      rcases hx with h | h
      · rw [h]
      · rw [h]
        norm_num)
    hexpR
  have hlog : Real.log 7 ≤ 2 := by
    rw [Real.log_le_iff_le_exp (by norm_num)]
    have h1 : (2.7182818283 : ℝ) < Real.exp 1 := Real.exp_one_gt_d9
    have h2 : Real.exp 2 = Real.exp 1 * Real.exp 1 := by
      rw [← Real.exp_add]
      norm_num
    nlinarith [Real.exp_pos 1]
  have hflat := C3_dominance [(3 : ℝ), 3, 3, 3, 3, 3, 3, 3, 3, 3] 7 (by simp)
    (by intro x hx; simp at hx; rw [hx]; norm_num) (by norm_num)
  refine ⟨hspike.1 ?_ 3 (by norm_num), hflat.2 (by simpa using hlog.trans (by norm_num))
    10 (by norm_num) (by norm_num)⟩
  rw [Real.log_exp]
  norm_num

/-- C9: for the West-1997 resistance objective with `C = 10`, every vector of
nonnegative components yields an objective value strictly greater than `0` and
at most `log (C+1)`; in exact real arithmetic the value `0` is never attained. -/
theorem C9_west_objective_range (v : List ℝ) (hlen : v.length = 10)
    (h0 : ∀ x ∈ v, 0 ≤ x) :
    0 < West.get_log_resistance v ∧ West.get_log_resistance v ≤ Real.log 11 := by
  unfold West.get_log_resistance
  have hLEV : West.LEVELS + 1 = 11 := rfl
  rw [hLEV]
  set f : ℕ → ℝ := fun k => -(2 / 3) * (v.drop k).sum with hf
  have hne : (List.range 11).map f ≠ [] := by simp
  rw [logsumexp_eq_log_sum_exp _ hne]
  rw [List.map_map]
  set g : ℕ → ℝ := Real.exp ∘ f with hg
  have hsplit : (List.range 11).map g = ((List.range 10).map g) ++ [g 10] := by
    rw [List.range_succ, List.map_append]
    simp
  have hg10 : g 10 = 1 := by
    have hdrop10 : v.drop 10 = [] := by
      rw [← hlen]
      exact List.drop_length v
    simp [hg, hf, Function.comp, hdrop10]
  have hpos10 : 0 < ((List.range 10).map g).sum := by
    apply List.sum_pos
    · intro x hx
      rcases List.mem_map.mp hx with ⟨y, _, rfl⟩
      exact Real.exp_pos _
    · simp
  have hS1 : 1 < ((List.range 11).map g).sum := by
    rw [hsplit, List.sum_append]
    simp only [List.sum_cons, List.sum_nil, hg10]
    linarith
  have hS11 : ((List.range 11).map g).sum ≤ 11 := by
    have hb : ∀ x ∈ (List.range 11).map g, x ≤ 1 := by
      intro x hx
      rcases List.mem_map.mp hx with ⟨y, _, rfl⟩
      have : f y ≤ 0 := by
        have := sum_drop_nonneg v h0 y
        simp only [hf]
        nlinarith
      calc g y = Real.exp (f y) := rfl
      _ ≤ Real.exp 0 := Real.exp_le_exp.mpr this
      _ = 1 := Real.exp_zero
    have := List.sum_le_card_nsmul ((List.range 11).map g) 1 hb
    simpa [nsmul_eq_mul] using this
  constructor
  · exact Real.log_pos hS1
  · exact Real.log_le_log (by linarith) hS11

/-- Closed witness for C9 at the hand-constructed vector of the notebook,
`test_log_nu = [0,...,0,85]`, whose exact objective value is positive even
though the notebook prints `0.0` in floating point. -/
theorem C9_west_objective_range_witness :
    0 < West.get_log_resistance West.test_log_nu ∧
      West.get_log_resistance West.test_log_nu ≤ Real.log 11 :=
  C9_west_objective_range West.test_log_nu (by simp [West.test_log_nu])
    (by
      intro x hx
      simp [West.test_log_nu] at hx
      rcases hx with h | h
      · rw [h]
      · rw [h]
        norm_num)

/-- C2: for every non-empty vector of reals, the log-sum-exp reduction
`logsumexp(logits) = m + ln(Σ exp(logits_i - m))` with `m = max(logits)`
satisfies `max(logits) ≤ logsumexp(logits)` and
`logsumexp(logits) ≤ max(logits) + ln(len(logits))`. -/
theorem C2_logsumexp_bounds (logits : List ℝ) (h : logits ≠ []) :
    listMax logits ≤ logsumexp logits ∧
      logsumexp logits ≤ listMax logits + Real.log logits.length := by
  rw [logsumexp_eq_log_sum_exp logits h]
  have hpos : 0 < (logits.map Real.exp).sum := sum_map_exp_pos logits h
  constructor
  · have hmem : Real.exp (listMax logits) ∈ logits.map Real.exp :=
      List.mem_map_of_mem Real.exp (listMax_mem h)
    have hnonneg : ∀ x ∈ logits.map Real.exp, 0 ≤ x := by
      intro x hx
      rcases List.mem_map.mp hx with ⟨y, _, rfl⟩
      exact (Real.exp_pos y).le
    have hle : Real.exp (listMax logits) ≤ (logits.map Real.exp).sum :=
      List.single_le_sum hnonneg _ hmem
    calc listMax logits = Real.log (Real.exp (listMax logits)) := (Real.log_exp _).symm
    _ ≤ Real.log ((logits.map Real.exp).sum) := Real.log_le_log (Real.exp_pos _) hle
  · have hub : (logits.map Real.exp).sum ≤ (logits.length : ℝ) * Real.exp (listMax logits) := by
      have hb : ∀ x ∈ logits.map Real.exp, x ≤ Real.exp (listMax logits) := by
        intro x hx
        rcases List.mem_map.mp hx with ⟨y, hy, rfl⟩
        exact Real.exp_le_exp.mpr (le_listMax hy)
      have := List.sum_le_card_nsmul (logits.map Real.exp) (Real.exp (listMax logits)) hb
      simpa [nsmul_eq_mul] using this
    have hlenpos : (0 : ℝ) < logits.length := by
      have : logits.length ≠ 0 := fun hlen => h (List.eq_nil_of_length_eq_zero hlen)
      exact_mod_cast Nat.pos_of_ne_zero this
    calc Real.log ((logits.map Real.exp).sum)
        ≤ Real.log ((logits.length : ℝ) * Real.exp (listMax logits)) :=
          Real.log_le_log hpos hub
    _ = Real.log logits.length + listMax logits := by
          rw [Real.log_mul (ne_of_gt hlenpos) (ne_of_gt (Real.exp_pos _)), Real.log_exp]
    _ = listMax logits + Real.log logits.length := by ring

/-- Closed witness for C2 at the concrete input `[0, 1]`. -/
theorem C2_logsumexp_bounds_witness :
    listMax [(0 : ℝ), 1] ≤ logsumexp [(0 : ℝ), 1] ∧
      logsumexp [(0 : ℝ), 1] ≤ listMax [(0 : ℝ), 1] + Real.log (([(0 : ℝ), 1] : List ℝ).length) :=
  C2_logsumexp_bounds [0, 1] (by simp)

/-- C5: for `C = 5` and every component of `log_nu` equal to `ln 2`, the
simple-sum aggregate `get_log_volume` equals exactly `5 * ln 2`. -/
theorem C5_volume_uniform :
    Bio.get_log_volume (List.replicate 5 (Real.log 2)) = 5 * Real.log 2 := by
  simp [Bio.get_log_volume, List.sum_replicate]
  ring

/-- C10: the plain-sum aggregates (`Bio.get_log_volume` and
`Logistics.get_log_population`) are invariant under every permutation of the
input components, hence the equality constraints built from them define
permutation-symmetric feasible sets. -/
theorem C10_perm_invariant (v w : List ℝ) (hp : v.Perm w) :
    Bio.get_log_volume v = Bio.get_log_volume w ∧
      Logistics.get_log_population v = Logistics.get_log_population w ∧
      ((Bio.constraints.headI.cfun v = 0) ↔ (Bio.constraints.headI.cfun w = 0)) ∧
      ((Logistics.constraints.headI.cfun v = 0) ↔ (Logistics.constraints.headI.cfun w = 0)) := by
  have hsum : v.sum = w.sum := hp.sum_eq
  refine ⟨?_, ?_, ?_, ?_⟩
  · simp [Bio.get_log_volume, hsum]
  · simp [Logistics.get_log_population, hsum]
  · simp [Bio.constraints, Bio.get_log_volume, hsum]
  · simp [Logistics.constraints, Logistics.get_log_population, hsum]

/-- Closed witness for C10 at the transposition `[1, 2] ~ [2, 1]`. -/
theorem C10_perm_invariant_witness :
    Bio.get_log_volume [(1 : ℝ), 2] = Bio.get_log_volume [(2 : ℝ), 1] ∧
      Logistics.get_log_population [(1 : ℝ), 2] = Logistics.get_log_population [(2 : ℝ), 1] ∧
      ((Bio.constraints.headI.cfun [(1 : ℝ), 2] = 0) ↔ (Bio.constraints.headI.cfun [(2 : ℝ), 1] = 0)) ∧
      ((Logistics.constraints.headI.cfun [(1 : ℝ), 2] = 0) ↔
        (Logistics.constraints.headI.cfun [(2 : ℝ), 1] = 0)) :=
  C10_perm_invariant [1, 2] [2, 1] (List.Perm.swap 2 1 [])

theorem coefCLM_apply {m : ℕ} (c x : Fin m → ℝ) : coefCLM c x = ∑ i, c i * x i := by
  simp [coefCLM, ContinuousLinearMap.sum_apply]

theorem expSum_pos {m : ℕ} {n : ℕ} (hn : 0 < n) (coef : ℕ → Fin m → ℝ) (x : Fin m → ℝ) :
    0 < expSum n coef x :=
  Finset.sum_pos (fun _ _ => Real.exp_pos _)
    (Finset.nonempty_range_iff.mpr (Nat.pos_iff_ne_zero.mp hn))

/-- The log-sum-exp of finitely many linear logits has, at every point, the
softmax-weighted combination of the per-logit coefficients as derivative. -/
theorem hasFDerivAt_log_expSum {m n : ℕ} (hn : 0 < n) (coef : ℕ → Fin m → ℝ)
    (x : Fin m → ℝ) :
    HasFDerivAt (fun y => Real.log (expSum n coef y)) (softmaxGrad n coef x) x := by
  have hpos : 0 < expSum n coef x := expSum_pos hn coef x
  have hF : HasFDerivAt (fun y => expSum n coef y)
      (∑ k in Finset.range n, Real.exp (coefCLM (coef k) x) • coefCLM (coef k)) x := by
    apply HasFDerivAt.sum
    intro k _
    exact (coefCLM (coef k)).hasFDerivAt.exp
  have hlog := hF.log (ne_of_gt hpos)
  convert hlog using 1
  rw [softmaxGrad, Finset.smul_sum]
  apply Finset.sum_congr rfl
  intro k _
  rw [smul_smul]
  congr 1
  field_simp

/-- A mapped sum over `List.range` is the corresponding `Finset.range` sum. -/
theorem list_range_map_sum (g : ℕ → ℝ) (n : ℕ) :
    ((List.range n).map g).sum = ∑ k in Finset.range n, g k := by
  induction n with
  | zero => simp
  | succ j ih =>
    rw [List.range_succ, List.map_append, List.sum_append, Finset.sum_range_succ, ih]
    simp

theorem getD_ofFn {m : ℕ} (ν : Fin m → ℝ) (i : Fin m) :
    (List.ofFn ν).getD (i : ℕ) 0 = ν i := by
  rw [List.getD_eq_getElem _ 0 (by simp)]
  simp

/-- The suffix sum of `List.ofFn ν` as an indexed `if`-sum. -/
theorem ofFn_drop_sum {m : ℕ} (ν : Fin m → ℝ) (k : ℕ) (hk : k ≤ m) :
    ((List.ofFn ν).drop k).sum = ∑ i : Fin m, if k ≤ (i : ℕ) then ν i else 0 := by
  have hlen : (List.ofFn ν).length = m := List.length_ofFn ν
  rw [sum_drop_eq_sum_Ico _ k (by omega), hlen]
  have hfin : (∑ i : Fin m, if k ≤ (i : ℕ) then ν i else 0)
      = ∑ j in Finset.range m, if k ≤ j then (List.ofFn ν).getD j 0 else 0 := by
    rw [← Fin.sum_univ_eq_sum_range fun j => if k ≤ j then (List.ofFn ν).getD j 0 else 0]
    apply Finset.sum_congr rfl
    intro i _
    rw [getD_ofFn]
  rw [hfin, ← Finset.sum_filter]
  apply Finset.sum_congr
  · ext j
    simp only [Finset.mem_filter, Finset.mem_range, Finset.mem_Ico]
    omega
  · intro j _
    rfl

/-- The prefix sum of `List.ofFn ν` as an indexed `if`-sum. -/
theorem ofFn_take_sum {m : ℕ} (ν : Fin m → ℝ) (k : ℕ) (hk : k ≤ m) :
    ((List.ofFn ν).take k).sum = ∑ i : Fin m, if (i : ℕ) < k then ν i else 0 := by
  have hlen : (List.ofFn ν).length = m := List.length_ofFn ν
  rw [sum_take_eq_sum_range _ k (by omega)]
  have hfin : (∑ i : Fin m, if (i : ℕ) < k then ν i else 0)
      = ∑ j in Finset.range m, if j < k then (List.ofFn ν).getD j 0 else 0 := by
    rw [← Fin.sum_univ_eq_sum_range fun j => if j < k then (List.ofFn ν).getD j 0 else 0]
    apply Finset.sum_congr rfl
    intro i _
    rw [getD_ofFn]
  rw [hfin, ← Finset.sum_filter]
  apply Finset.sum_congr
  · ext j
    simp only [Finset.mem_filter, Finset.mem_range]
    omega
  · intro j _
    rfl

theorem suffix_coef_sum {m : ℕ} (ν : Fin m → ℝ) (a : ℝ) (k : ℕ) :
    (∑ i : Fin m, (if k ≤ (i : ℕ) then a else 0) * ν i)
      = a * ∑ i : Fin m, if k ≤ (i : ℕ) then ν i else 0 := by
  rw [Finset.mul_sum]
  apply Finset.sum_congr rfl
  intro i _
  by_cases hki : k ≤ (i : ℕ)
  · rw [if_pos hki, if_pos hki]
  · rw [if_neg hki, if_neg hki]
    ring

/-- The adjusted-biology objective on `List.ofFn ν` is `log` of the `expSum`
of its `6` linear logits. -/
theorem bio_objective_eq_log_expSum (ν : Fin 5 → ℝ) :
    Bio.get_log_resistance (List.ofFn ν) = Real.log (expSum 6 bioCoef ν) := by
  unfold Bio.get_log_resistance
  rw [show Bio.levels + 1 = 6 from rfl,
    logsumexp_eq_log_sum_exp _ (by simp), List.map_map, list_range_map_sum]
  congr 1
  unfold expSum
  apply Finset.sum_congr rfl
  intro k hk
  simp only [Function.comp]
  congr 1
  have hk5 : k ≤ 5 := by
    have := Finset.mem_range.mp hk
    omega
  rw [ofFn_drop_sum ν k hk5, ofFn_take_sum ν k hk5, coefCLM_apply]
  have hpt : ∀ i : Fin 5, bioCoef k i * ν i
      = -(5 / 3) * (if k ≤ (i : ℕ) then ν i else 0)
        + (-1) * (if (i : ℕ) < k then ν i else 0) := by
    intro i
    unfold bioCoef
    by_cases hki : k ≤ (i : ℕ)
    · rw [if_pos hki, if_pos hki, if_neg (by omega)]
      ring
    · rw [if_neg hki, if_neg hki, if_pos (by omega)]
      ring
  rw [Finset.sum_congr rfl fun i _ => hpt i, Finset.sum_add_distrib,
    ← Finset.mul_sum, ← Finset.mul_sum]
  ring

/-- The West-1997 resistance objective on `List.ofFn ν` is `log` of the
`expSum` of its `11` linear logits. -/
theorem west_objective_eq_log_expSum (ν : Fin 10 → ℝ) :
    West.get_log_resistance (List.ofFn ν) = Real.log (expSum 11 westCoef ν) := by
  unfold West.get_log_resistance
  rw [show West.LEVELS + 1 = 11 from rfl,
    logsumexp_eq_log_sum_exp _ (by simp), List.map_map, list_range_map_sum]
  congr 1
  unfold expSum
  apply Finset.sum_congr rfl
  intro k hk
  simp only [Function.comp]
  congr 1
  rw [ofFn_drop_sum ν k (by have := Finset.mem_range.mp hk; omega), coefCLM_apply]
  simp only [westCoef]
  rw [suffix_coef_sum]

/-- The West-1997 volume aggregate on `List.ofFn ν` is `log` of the `expSum`
of its `11` linear logits. -/
theorem west_volume_eq_log_expSum (ν : Fin 10 → ℝ) :
    West.get_log_volume (List.ofFn ν) = Real.log (expSum 11 westVolCoef ν) := by
  unfold West.get_log_volume
  rw [show West.LEVELS + 1 = 11 from rfl,
    logsumexp_eq_log_sum_exp _ (by simp), List.map_map, list_range_map_sum]
  congr 1
  unfold expSum
  apply Finset.sum_congr rfl
  intro k hk
  simp only [Function.comp]
  congr 1
  rw [ofFn_drop_sum ν k (by have := Finset.mem_range.mp hk; omega), coefCLM_apply]
  simp only [westVolCoef]
  rw [suffix_coef_sum]

/-- The logistics consumption objective on `List.ofFn ν` is `log` of the
`expSum` of its `5` linear logits. -/
theorem logistics_objective_eq_log_expSum (ν : Fin 4 → ℝ) :
    Logistics.get_log_consumption (List.ofFn ν) = Real.log (expSum 5 logisticsCoef ν) := by
  unfold Logistics.get_log_consumption
  rw [show Logistics.LEVELS + 1 = 5 from rfl,
    logsumexp_eq_log_sum_exp _ (by simp), List.map_map, list_range_map_sum]
  congr 1
  unfold expSum
  apply Finset.sum_congr rfl
  intro k hk
  simp only [Function.comp]
  congr 1
  rw [ofFn_drop_sum ν k (by have := Finset.mem_range.mp hk; omega), coefCLM_apply]
  simp only [logisticsCoef]
  rw [suffix_coef_sum]

/-- C8: every per-variant log-sum-exp objective and log-sum-exp aggregate is
differentiable at every finite `log_nu`, with derivative the softmax-weighted
combination of the per-term linear coefficient functionals. -/
theorem C8_objectives_differentiable :
    (∀ ν : Fin 5 → ℝ,
      HasFDerivAt (fun y : Fin 5 → ℝ => Bio.get_log_resistance (List.ofFn y))
        (softmaxGrad 6 bioCoef ν) ν) ∧
    (∀ ν : Fin 10 → ℝ,
      HasFDerivAt (fun y : Fin 10 → ℝ => West.get_log_resistance (List.ofFn y))
        (softmaxGrad 11 westCoef ν) ν) ∧
    (∀ ν : Fin 10 → ℝ,
      HasFDerivAt (fun y : Fin 10 → ℝ => West.get_log_volume (List.ofFn y))
        (softmaxGrad 11 westVolCoef ν) ν) ∧
    (∀ ν : Fin 4 → ℝ,
      HasFDerivAt (fun y : Fin 4 → ℝ => Logistics.get_log_consumption (List.ofFn y))
        (softmaxGrad 5 logisticsCoef ν) ν) := by
  refine ⟨fun ν => ?_, fun ν => ?_, fun ν => ?_, fun ν => ?_⟩
  · rw [funext fun y => bio_objective_eq_log_expSum y]
    exact hasFDerivAt_log_expSum (by norm_num) bioCoef ν
  · rw [funext fun y => west_objective_eq_log_expSum y]
    exact hasFDerivAt_log_expSum (by norm_num) westCoef ν
  · rw [funext fun y => west_volume_eq_log_expSum y]
    exact hasFDerivAt_log_expSum (by norm_num) westVolCoef ν
  · rw [funext fun y => logistics_objective_eq_log_expSum y]
    exact hasFDerivAt_log_expSum (by norm_num) logisticsCoef ν

theorem exp_thirds_log_two (j n : ℕ) (t : ℝ)
    (ht : t = ((j : ℝ) / 3 - (n : ℝ)) * Real.log 2) :
    Real.exp t = ((2 : ℝ) ^ ((1 : ℝ) / 3)) ^ j * ((2 : ℝ) ^ n)⁻¹ := by
  rw [ht, mul_comm, ← Real.rpow_def_of_pos (by norm_num : (0 : ℝ) < 2),
    sub_eq_add_neg, Real.rpow_add (by norm_num : (0 : ℝ) < 2)]
  congr 1
  · rw [← Real.rpow_natCast ((2 : ℝ) ^ ((1 : ℝ) / 3)) j,
      ← Real.rpow_mul (by norm_num : (0 : ℝ) ≤ 2)]
    congr 1
    ring
  · rw [Real.rpow_neg (by norm_num : (0 : ℝ) ≤ 2), Real.rpow_natCast]

/-- At the uniform input `log_nu = [ln 2, ..., ln 2]`, the adjusted-biology
objective is the log of an explicit quadratic in the cube root of two. -/
theorem bio_objective_uniform_eq :
    Bio.get_log_resistance (List.replicate 5 (Real.log 2))
      = Real.log (5 / 512 * ((2 : ℝ) ^ ((1 : ℝ) / 3)) ^ 2
          + 5 / 256 * ((2 : ℝ) ^ ((1 : ℝ) / 3)) + 5 / 128) := by
  unfold Bio.get_log_resistance
  rw [logsumexp_eq_log_sum_exp _ (by simp)]
  congr 1
  norm_num [Bio.levels, List.range_succ]
  rw [show Real.exp (-(5 / 3 * (5 * Real.log 2)))
        = ((2 : ℝ) ^ ((1 : ℝ) / 3)) ^ 2 * ((2 : ℝ) ^ (9 : ℕ))⁻¹ from
      exp_thirds_log_two 2 9 _ (by push_cast; ring),
    show Real.exp (-(5 / 3 * (4 * Real.log 2)) - Real.log 2)
        = ((2 : ℝ) ^ ((1 : ℝ) / 3)) ^ 1 * ((2 : ℝ) ^ (8 : ℕ))⁻¹ from
      exp_thirds_log_two 1 8 _ (by push_cast; ring),
    show Real.exp (-(5 / 3 * (3 * Real.log 2)) - 2 * Real.log 2)
        = ((2 : ℝ) ^ ((1 : ℝ) / 3)) ^ 0 * ((2 : ℝ) ^ (7 : ℕ))⁻¹ from
      exp_thirds_log_two 0 7 _ (by push_cast; ring),
    show Real.exp (-(5 / 3 * (2 * Real.log 2)) - 3 * Real.log 2)
        = ((2 : ℝ) ^ ((1 : ℝ) / 3)) ^ 2 * ((2 : ℝ) ^ (7 : ℕ))⁻¹ from
      exp_thirds_log_two 2 7 _ (by push_cast; ring),
    show Real.exp (-(5 / 3 * Real.log 2) - 4 * Real.log 2)
        = ((2 : ℝ) ^ ((1 : ℝ) / 3)) ^ 1 * ((2 : ℝ) ^ (6 : ℕ))⁻¹ from
      exp_thirds_log_two 1 6 _ (by push_cast; ring),
    show Real.exp (-(5 * Real.log 2))
        = ((2 : ℝ) ^ ((1 : ℝ) / 3)) ^ 0 * ((2 : ℝ) ^ (5 : ℕ))⁻¹ from
      exp_thirds_log_two 0 5 _ (by push_cast; ring)]
  norm_num
  ring

theorem cbrt_two_cube : ((2 : ℝ) ^ ((1 : ℝ) / 3)) ^ (3 : ℕ) = 2 := by
  rw [← Real.rpow_natCast ((2 : ℝ) ^ ((1 : ℝ) / 3)) 3,
    ← Real.rpow_mul (by norm_num : (0 : ℝ) ≤ 2)]
  norm_num

theorem cbrt_two_gt : (1.259921049 : ℝ) < (2 : ℝ) ^ ((1 : ℝ) / 3) := by
  apply lt_of_pow_lt_pow_left₀ 3 (Real.rpow_nonneg (by norm_num : (0 : ℝ) ≤ 2) _)
  rw [cbrt_two_cube]
  norm_num

theorem cbrt_two_lt : (2 : ℝ) ^ ((1 : ℝ) / 3) < 1.25992105 := by
  apply lt_of_pow_lt_pow_left₀ 3 (by norm_num : (0 : ℝ) ≤ 1.25992105)
  rw [cbrt_two_cube]
  norm_num

/-- Lower estimate of `log (1 - x)` by a partial Taylor sum. -/
theorem log_ge_of_series (x : ℝ) (hx : |x| < 1) (n : ℕ) :
    -(∑ i in Finset.range n, x ^ (i + 1) / (i + 1)) - |x| ^ (n + 1) / (1 - |x|)
      ≤ Real.log (1 - x) := by
  have h := abs_le.mp (Real.abs_log_sub_add_sum_range_le hx n)
  linarith [h.1, h.2]

/-- Upper estimate of `log (1 - x)` by a partial Taylor sum. -/
theorem log_le_of_series (x : ℝ) (hx : |x| < 1) (n : ℕ) :
    Real.log (1 - x)
      ≤ -(∑ i in Finset.range n, x ^ (i + 1) / (i + 1)) + |x| ^ (n + 1) / (1 - |x|) := by
  have h := abs_le.mp (Real.abs_log_sub_add_sum_range_le hx n)
  linarith [h.1, h.2]

theorem log_lower_endpoint : (0.236459887254 : ℝ) ≤ Real.log 1.266756741824 := by
  have hx : |(-0.266756741824 : ℝ)| < 1 := by
    rw [abs_of_nonpos (by norm_num)]
    norm_num
  have h := log_ge_of_series (-0.266756741824) hx 16
  rw [show ((1 : ℝ) - (-0.266756741824)) = 1.266756741824 by norm_num] at h
  refine le_trans ?_ h
  rw [abs_of_nonpos (by norm_num)]
  simp only [Finset.sum_range_succ, Finset.sum_range_zero]
  push_cast
  norm_num

theorem log_upper_endpoint : Real.log 1.266756742544 ≤ (0.236459888302 : ℝ) := by
  have hx : |(-0.266756742544 : ℝ)| < 1 := by
    rw [abs_of_nonpos (by norm_num)]
    norm_num
  have h := log_le_of_series (-0.266756742544) hx 16
  rw [show ((1 : ℝ) - (-0.266756742544)) = 1.266756742544 by norm_num] at h
  refine le_trans h ?_
  rw [abs_of_nonpos (by norm_num)]
  simp only [Finset.sum_range_succ, Finset.sum_range_zero]
  push_cast
  norm_num

/-- C4: for the adjusted-biology variant with `C = 5` and every component of
`log_nu` equal to `ln 2`, the objective `get_log_resistance` equals
`-2.536128834` to within `1e-6`. -/
theorem C4_bio_objective_value :
    |Bio.get_log_resistance (List.replicate 5 (Real.log 2)) - (-2.536128834)| ≤ 1e-6 := by
  rw [bio_objective_uniform_eq]
  have h1 := cbrt_two_gt
  have h2 := cbrt_two_lt
  set c := (2 : ℝ) ^ ((1 : ℝ) / 3) with hc
  set S := 5 / 512 * c ^ 2 + 5 / 256 * c + 5 / 128 with hrep
  have hcpos : (0 : ℝ) < c := lt_trans (by norm_num) h1
  have hq1 : (1.259921049 : ℝ) ^ 2 < c ^ 2 := by nlinarith
  have hq2 : c ^ 2 < (1.25992105 : ℝ) ^ 2 := by nlinarith
  have hS_lo : (0.079172296364 : ℝ) ≤ S := by rw [hrep]; nlinarith
  have hS_hi : S ≤ (0.079172296409 : ℝ) := by rw [hrep]; nlinarith
  have hSpos : (0 : ℝ) < S := lt_of_lt_of_le (by norm_num) hS_lo
  have h16 : Real.log (16 * S) = Real.log 16 + Real.log S :=
    Real.log_mul (by norm_num) (ne_of_gt hSpos)
  have hlog16 : Real.log 16 = 4 * Real.log 2 := by
    rw [show (16 : ℝ) = 2 ^ (4 : ℕ) by norm_num, Real.log_pow]
    push_cast
    ring
  have hlo : (0.236459887254 : ℝ) ≤ Real.log (16 * S) :=
    le_trans log_lower_endpoint (Real.log_le_log (by norm_num) (by linarith))
  have hhi : Real.log (16 * S) ≤ (0.236459888302 : ℝ) :=
    le_trans (Real.log_le_log (by linarith) (by linarith)) log_upper_endpoint
  have hln2a := Real.log_two_gt_d9
  have hln2b := Real.log_two_lt_d9
  rw [abs_le]
  constructor
  · nlinarith [h16, hlog16, hlo, hln2b]
  · nlinarith [h16, hlog16, hhi, hln2a]

end Maxent

